import Mathlib

/-!
# The descriptor-set capacity probe (`iokit/ext/iokit/constants.c`)

The program is

    int main() {
      printf("FD_SETSIZE=%d\n", FD_SETSIZE);
      return(0);
    }

`FD_SETSIZE` is a macro of the host's `<sys/select.h>`; it is not defined by
the program, so every definition below takes its value as a parameter.
Bytes are modelled as `Char` (the program only emits ASCII), C `int` values
as `Int`: the program does no arithmetic on the value, and every statement
proved for all of `Int` holds for the values of a C `int` in particular.
-/

namespace Probe

/-- A byte string. -/
abbrev Bytes := List Char

/-! ## The world the process runs in -/

/-- The state of the host as far as a process can touch it. `stdout` holds
the byte strings the process has sent to its standard output stream, one
entry per output call, oldest first. Whether the host accepted them is what
the output call reports back as its result; it is not recorded here. -/
structure World where
  stdout : List Bytes
  files : List (String × Bytes)
  descriptors : List Nat
  sockets : List Nat
deriving DecidableEq

/-- What a process is started with besides the world: its argument list and
its environment variables. -/
structure Invocation where
  argv : List String
  envp : List (String × String)
deriving DecidableEq

/-! ## Formatted output, as far as the program uses it -/

/-- The character of a decimal digit: `'0' + d`. -/
def digit_char (d : Nat) : Char := Char.ofNat ('0'.toNat + d)

/-- The digit loop of the `%d` conversion: the least significant digit of
`v` is put in front of what has been produced so far and the loop goes on
with `v / 10` until nothing is left. `fuel` bounds the number of rounds. -/
def utoa_loop : Nat → Nat → Bytes → Bytes
  | 0, _, acc => acc
  | fuel + 1, v, acc =>
    let acc' := digit_char (v % 10) :: acc
    if v / 10 = 0 then acc' else utoa_loop fuel (v / 10) acc'

/-- The digits of an unsigned value. A value `v` has at most `v + 1` digits,
which is the fuel given to the loop. -/
def fmt_unsigned (v : Nat) : Bytes := utoa_loop (v + 1) v []

/-- The conversion `%d` without flags, width or precision: a minus sign for
a negative value, then the digits of the magnitude. -/
def fmt_d (v : Int) : Bytes :=
  if v < 0 then '-' :: fmt_unsigned v.natAbs else fmt_unsigned v.natAbs

/-- The formatting engine of `printf`, restricted to what a format made of
ordinary characters, `%d` and `%%` needs. Ordinary characters are copied;
`%d` consumes the next argument. A directive outside this fragment, or a
`%d` without an argument, is undefined behaviour: `none`. -/
def vformat : List Char → List Int → Option Bytes
  | [], _ => some []
  | c :: rest, args =>
    if c = '%' then
      match rest, args with
      | 'd' :: rest', a :: args' => (vformat rest' args').map (fmt_d a ++ ·)
      | '%' :: rest', args' => (vformat rest' args').map ('%' :: ·)
      | _, _ => none
    else (vformat rest args).map (c :: ·)

/-- The call `printf(format, args...)`: the formatted bytes are sent to
standard output as one output call. The value returned to the caller is
`host_result`, which the host chooses: the number of bytes transmitted, or a
negative number when it reports an output error. -/
def printf (host_result : Int) (w : World) (format : String) (args : List Int) :
    Option (World × Int) :=
  (vformat format.toList args).map fun bytes =>
    ({ w with stdout := w.stdout ++ [bytes] }, host_result)

/-! ## The program -/

/-- The function `main` of `constants.c`. `FD_SETSIZE` is the value of the
host's macro. The result of `printf` is dropped, and the function returns 0. -/
def main (FD_SETSIZE : Int) (host_result : Int) (w : World) : Option (World × Int) :=
  match printf host_result w "FD_SETSIZE=%d\n" [FD_SETSIZE] with
  | some (w', _) => some (w', 0)
  | none => none

/-- A run of the probe. `main` is declared without parameters, so the
argument list and the environment of the invocation never reach it. -/
def run_probe (FD_SETSIZE : Int) (_inv : Invocation) (host_result : Int) (w : World) :
    Option (World × Int) :=
  main FD_SETSIZE host_result w

/-- The bytes a run has sent to standard output: what `stdout` holds after
the run beyond what it held before. -/
def bytes_written (before : World) (result : Option (World × Int)) : Option Bytes :=
  result.map fun r => (r.1.stdout.drop before.stdout.length).flatten

/-- The exit status of a run. -/
def exit_status (result : Option (World × Int)) : Option Int :=
  result.map fun r => r.2

/-! ## The process as a state machine -/

/-- The control states of the process. -/
inductive Phase where
  | Running
  | Terminated
deriving DecidableEq

/-- A process: its control state, the world, and its exit status once it
has one. -/
structure Proc where
  phase : Phase
  world : World
  status : Option Int
deriving DecidableEq

/-- The process as the host starts it. -/
def start (w : World) : Proc := ⟨Phase.Running, w, none⟩

/-- One step of the process: a running process executes the body of `main`
and terminates with the status `main` returns; a terminated process has no
step. -/
def step (FD_SETSIZE : Int) (host_result : Int) (p : Proc) : Option Proc :=
  match p.phase with
  | Phase.Running =>
    match main FD_SETSIZE host_result p.world with
    | some (w', s) => some ⟨Phase.Terminated, w', some s⟩
    | none => none
  | Phase.Terminated => none

/-- Runs the process for at most `fuel` steps, stopping when there is no
step left. Returns the last state and the number of steps taken. -/
def exec (FD_SETSIZE : Int) (host_result : Int) : Nat → Proc → Proc × Nat
  | 0, p => (p, 0)
  | fuel + 1, p =>
    match step FD_SETSIZE host_result p with
    | none => (p, 0)
    | some p' =>
      let r := exec FD_SETSIZE host_result fuel p'
      (r.1, r.2 + 1)

/-! ## The specification's side

Definitions that follow the words of the specification: the line it
prescribes, the consumer that reads the line back, and the shapes it
promises of the output. None of them is used by the program above. -/

/-- The line of the specification: `FD_SETSIZE=`, the decimal representation
of the capacity, one newline. -/
def spec_line (N : Int) : Bytes := ("FD_SETSIZE=" ++ toString N ++ "\n").toList

/-- The consumer removes one trailing line terminator, if there is one. -/
def chomp (s : Bytes) : Bytes :=
  if s.getLast? = some '\n' then s.dropLast else s

/-- The consumer splits a line into fields at every occurrence of `sep`. -/
def split_on (sep : Char) : Bytes → List Bytes
  | [] => [[]]
  | c :: cs =>
    if c = sep then [] :: split_on sep cs
    else
      match split_on sep cs with
      | [] => [[c]]
      | f :: fs => (c :: f) :: fs

/-- The value of a decimal digit character. -/
def digit_value (c : Char) : Nat := c.toNat - '0'.toNat

/-- The number a string of decimal digits denotes. -/
def digits_value (t : Bytes) : Nat :=
  t.foldl (fun acc c => 10 * acc + digit_value c) 0

/-- Reads a non-empty string of decimal digits as a natural number. -/
def parse_nat (t : Bytes) : Option Nat :=
  if t ≠ [] ∧ t.all Char.isDigit = true then some (digits_value t) else none

/-- Reads a decimal integer: an optional minus sign, then digits. -/
def parse_int (t : Bytes) : Option Int :=
  match t with
  | [] => none
  | c :: rest =>
    if c = '-' then (parse_nat rest).map fun (n : Nat) => -(n : Int)
    else (parse_nat (c :: rest)).map fun (n : Nat) => (n : Int)

/-- The text between `FD_SETSIZE=` and the final newline of an output of the
shape `FD_SETSIZE=<text>` followed by a newline; `none` for any other
output. -/
def value_text (out : Bytes) : Option Bytes :=
  if "FD_SETSIZE=".toList.isPrefixOf out = true ∧ out.getLast? = some '\n' then
    some (out.drop "FD_SETSIZE=".length).dropLast
  else none

/-- The pattern `FD_SETSIZE=<positive integer>`: the text after `=` and
before the line terminator is a non-empty string of decimal digits that
denotes a number greater than 0. -/
def matches_positive_pattern (out : Bytes) : Bool :=
  match value_text out with
  | some t => !t.isEmpty && t.all Char.isDigit && decide (0 < digits_value t)
  | none => false

/-- White space in the sense of C's `isspace`: space, tab, newline, vertical
tab, form feed, carriage return. -/
def isspace (c : Char) : Bool :=
  c = ' ' || (9 ≤ c.toNat && c.toNat ≤ 13)

/-- A printed integer has no leading zeros: after an optional minus sign
come one or more decimal digits, and the first of them is `0` only when it
is the only one. -/
def no_leading_zeros (t : Bytes) : Bool :=
  let d := match t with
    | [] => []
    | c :: rest => if c = '-' then rest else c :: rest
  !d.isEmpty && d.all Char.isDigit && (d.head? != some '0' || d.length == 1)

/-! ## Facts about the digit loop -/

theorem digit_char_facts : ∀ d, d < 10 →
    digit_char d = Nat.digitChar d ∧ (digit_char d).isDigit = true ∧
    digit_value (digit_char d) = d ∧ (digit_char d = '0' → d = 0) ∧
    digit_char d ≠ '-' ∧ digit_char d ≠ '+' ∧ digit_char d ≠ '=' ∧
    digit_char d ≠ '\n' ∧ isspace (digit_char d) = false := by
  decide

/-- The digit loop is the loop Lean prints natural numbers with. -/
theorem utoa_loop_eq_toDigitsCore (fuel : Nat) : ∀ (v : Nat) (acc : Bytes),
    utoa_loop fuel v acc = Nat.toDigitsCore 10 fuel v acc := by
  induction fuel with
  | zero => intro v acc; rfl
  | succ fuel ih =>
    intro v acc
    have hd := (digit_char_facts (v % 10) (Nat.mod_lt _ (by decide))).1
    simp only [utoa_loop, Nat.toDigitsCore, hd, ih]

/-- With enough fuel the loop puts in front of the accumulator a non-empty
run of digits that denotes `v` and starts with `0` only for `v = 0`. -/
theorem utoa_loop_spec (fuel : Nat) : ∀ (v : Nat) (acc : Bytes), v < fuel →
    ∃ ds : Bytes, utoa_loop fuel v acc = ds ++ acc ∧ ds ≠ [] ∧
      (∀ c ∈ ds, ∃ d, d < 10 ∧ c = digit_char d) ∧
      (ds.head? = some '0' → ds = ['0']) ∧ digits_value ds = v := by
  induction fuel with
  | zero => intro v acc h; exact absurd h (Nat.not_lt_zero v)
  | succ fuel ih =>
    intro v acc hv
    have hlt : v % 10 < 10 := Nat.mod_lt _ (by decide)
    have hf := digit_char_facts (v % 10) hlt
    by_cases h0 : v / 10 = 0
    · refine ⟨[digit_char (v % 10)], ?_, by simp, ?_, ?_, ?_⟩
      · simp [utoa_loop, h0]
      · intro c hc
        exact ⟨v % 10, hlt, by simpa using hc⟩
      · intro hh
        have : digit_char (v % 10) = '0' := by simpa using hh
        rw [this]
      · have hv' : v % 10 = v := by omega
        have hdv := hf.2.2.1
        rw [hv'] at hdv
        simpa [digits_value, hv'] using hdv
    · have hq : v / 10 < fuel := by omega
      obtain ⟨ds, hds, hne, hdig, hhead, hval⟩ := ih (v / 10) (digit_char (v % 10) :: acc) hq
      refine ⟨ds ++ [digit_char (v % 10)], ?_, by simp, ?_, ?_, ?_⟩
      · simp [utoa_loop, h0, hds]
      · intro c hc
        rcases List.mem_append.mp hc with h | h
        · exact hdig c h
        · exact ⟨v % 10, hlt, by simpa using h⟩
      · intro hh
        exfalso
        cases ds with
        | nil => exact hne rfl
        | cons a t =>
          have ha : (a :: t) = ['0'] := hhead (by simpa using hh)
          rw [ha] at hval
          have : digits_value ['0'] = 0 := by decide
          omega
      · have : digits_value (ds ++ [digit_char (v % 10)])
            = 10 * digits_value ds + digit_value (digit_char (v % 10)) := by
          simp [digits_value, List.foldl_append]
        rw [this, hval, hf.2.2.1]
        omega

/-- What the digits of an unsigned value are. -/
theorem fmt_unsigned_spec (v : Nat) :
    fmt_unsigned v ≠ [] ∧ (∀ c ∈ fmt_unsigned v, ∃ d, d < 10 ∧ c = digit_char d) ∧
    ((fmt_unsigned v).head? = some '0' → fmt_unsigned v = ['0']) ∧
    digits_value (fmt_unsigned v) = v := by
  obtain ⟨ds, hds, hne, hdig, hhead, hval⟩ := utoa_loop_spec (v + 1) v [] (Nat.lt_succ_self v)
  have : fmt_unsigned v = ds := by simpa [fmt_unsigned] using hds
  rw [this]
  exact ⟨hne, hdig, hhead, hval⟩

/-! ## The line the program prints, and reading it back -/

theorem fmt_unsigned_eq_repr (v : Nat) : fmt_unsigned v = (toString v).toList := by
  simp [fmt_unsigned, utoa_loop_eq_toDigitsCore, toString, Nat.repr, Nat.toDigits, List.asString]

theorem fmt_d_eq_toString (N : Int) : fmt_d N = (toString N).toList := by
  cases N with
  | ofNat m =>
    have h : ¬ (Int.ofNat m < 0) := by simp
    simp only [fmt_d, h, if_false, Int.natAbs_ofNat]
    rw [fmt_unsigned_eq_repr]
    rfl
  | negSucc m =>
    have h : Int.negSucc m < 0 := Int.negSucc_lt_zero m
    simp only [fmt_d, h, if_true]
    rw [fmt_unsigned_eq_repr]
    show _ = ("-" ++ toString (m+1)).toList
    simp [String.toList, String.data_append]

theorem vformat_probe (N : Int) :
    vformat "FD_SETSIZE=%d\n".toList [N] = some ("FD_SETSIZE=".toList ++ fmt_d N ++ ['\n']) := by
  rfl

theorem spec_line_eq (N : Int) : spec_line N = "FD_SETSIZE=".toList ++ fmt_d N ++ ['\n'] := by
  rw [fmt_d_eq_toString]
  simp [spec_line, String.toList, String.data_append]

theorem main_eq (N r : Int) (w : World) :
    main N r w = some ({ w with stdout := w.stdout ++ [spec_line N] }, 0) := by
  unfold main printf
  rw [vformat_probe, spec_line_eq]
  rfl

theorem fmt_d_chars (N : Int) : ∀ c ∈ fmt_d N, c = '-' ∨ ∃ d, d < 10 ∧ c = digit_char d := by
  intro c hc
  unfold fmt_d at hc
  split at hc
  · rcases List.mem_cons.mp hc with h | h
    · exact Or.inl h
    · exact Or.inr ((fmt_unsigned_spec _).2.1 c h)
  · exact Or.inr ((fmt_unsigned_spec _).2.1 c hc)

theorem parse_nat_fmt_unsigned (v : Nat) : parse_nat (fmt_unsigned v) = some v := by
  obtain ⟨hne, hdig, _, hval⟩ := fmt_unsigned_spec v
  have hall : (fmt_unsigned v).all Char.isDigit = true := by
    rw [List.all_eq_true]
    intro c hc
    obtain ⟨d, hd, rfl⟩ := hdig c hc
    exact (digit_char_facts d hd).2.1
  simp [parse_nat, hne, hall, hval]

theorem fmt_unsigned_head_ne_minus (v : Nat) :
    ∃ c rest, fmt_unsigned v = c :: rest ∧ c ≠ '-' := by
  obtain ⟨hne, hdig, _, _⟩ := fmt_unsigned_spec v
  cases h : fmt_unsigned v with
  | nil => exact absurd h hne
  | cons c rest =>
    refine ⟨c, rest, rfl, ?_⟩
    obtain ⟨d, hd, hc⟩ := hdig c (by rw [h]; exact List.mem_cons_self _ _)
    rw [hc]
    exact (digit_char_facts d hd).2.2.2.2.1

theorem parse_int_fmt_d (N : Int) : parse_int (fmt_d N) = some N := by
  unfold fmt_d
  split
  · next h =>
    have hN : -(N.natAbs : Int) = N := by omega
    simp only [parse_int, ↓reduceIte, parse_nat_fmt_unsigned, Option.map_some', hN]
  · next h =>
    obtain ⟨c, rest, hcr, hc⟩ := fmt_unsigned_head_ne_minus N.natAbs
    have hp := parse_nat_fmt_unsigned N.natAbs
    rw [hcr] at hp ⊢
    have hN : (N.natAbs : Int) = N := by omega
    simp only [parse_int, hc, ↓reduceIte, hp, Option.map_some', hN]

theorem split_on_no_sep (sep : Char) : ∀ b : Bytes, sep ∉ b → split_on sep b = [b] := by
  intro b
  induction b with
  | nil => intro _; rfl
  | cons c cs ih =>
    intro h
    have hc : c ≠ sep := fun e => h (by rw [e]; exact List.mem_cons_self _ _)
    have hcs : sep ∉ cs := fun e => h (List.mem_cons_of_mem _ e)
    simp [split_on, hc, ih hcs]

theorem split_on_append (sep : Char) (b : Bytes) : ∀ a : Bytes, sep ∉ a →
    split_on sep (a ++ sep :: b) = a :: split_on sep b := by
  intro a
  induction a with
  | nil => intro _; simp [split_on]
  | cons c cs ih =>
    intro h
    have hc : c ≠ sep := fun e => h (by rw [e]; exact List.mem_cons_self _ _)
    have hcs : sep ∉ cs := fun e => h (List.mem_cons_of_mem _ e)
    simp [split_on, hc, ih hcs]

theorem chomp_append_newline (a : Bytes) : chomp (a ++ ['\n']) = a := by
  simp [chomp]

theorem value_text_shape (t : Bytes) :
    value_text ("FD_SETSIZE=".toList ++ t ++ ['\n']) = some t := by
  have h1 : "FD_SETSIZE=".toList.isPrefixOf ("FD_SETSIZE=".toList ++ t ++ ['\n']) = true := by
    rw [List.append_assoc]
    simp
  have h2 : ("FD_SETSIZE=".toList ++ t ++ ['\n']).getLast? = some '\n' :=
    List.getLast?_concat _
  have h3 : List.drop "FD_SETSIZE=".length ("FD_SETSIZE=".toList ++ t ++ ['\n'])
      = t ++ ['\n'] := rfl
  simp only [value_text, h1, h2, h3, and_self, if_true]
  simp

theorem value_text_spec_line (N : Int) : value_text (spec_line N) = some (fmt_d N) := by
  rw [spec_line_eq, value_text_shape]

theorem bytes_written_append (w : World) (line : Bytes) (s : Int) :
    bytes_written w (some ({ w with stdout := w.stdout ++ [line] }, s)) = some line := by
  simp [bytes_written]

theorem run_probe_eq (N r : Int) (inv : Invocation) (w : World) :
    run_probe N inv r w = some ({ w with stdout := w.stdout ++ [spec_line N] }, 0) :=
  main_eq N r w

theorem prefix_chars : ∀ c ∈ "FD_SETSIZE=".toList, c ≠ '\n' ∧ isspace c = false := by
  decide

theorem fmt_d_char_facts (N : Int) : ∀ c ∈ fmt_d N,
    c ≠ '=' ∧ c ≠ '+' ∧ c ≠ '\n' ∧ isspace c = false := by
  intro c hc
  rcases fmt_d_chars N c hc with rfl | ⟨d, hd, rfl⟩
  · decide
  · have hf := digit_char_facts d hd
    exact ⟨hf.2.2.2.2.2.2.1, hf.2.2.2.2.2.1, hf.2.2.2.2.2.2.2.1, hf.2.2.2.2.2.2.2.2⟩

theorem no_leading_zeros_fmt_d (N : Int) : no_leading_zeros (fmt_d N) = true := by
  have key : ∀ v : Nat, (!(fmt_unsigned v).isEmpty && (fmt_unsigned v).all Char.isDigit &&
      ((fmt_unsigned v).head? != some '0' || (fmt_unsigned v).length == 1)) = true := by
    intro v
    obtain ⟨hne, hdig, hhead, _⟩ := fmt_unsigned_spec v
    have hall : (fmt_unsigned v).all Char.isDigit = true := by
      rw [List.all_eq_true]
      intro c hc
      obtain ⟨d, hd, rfl⟩ := hdig c hc
      exact (digit_char_facts d hd).2.1
    have hemp : (fmt_unsigned v).isEmpty = false := by
      cases h : fmt_unsigned v with
      | nil => exact absurd h hne
      | cons a t => rfl
    by_cases h0 : (fmt_unsigned v).head? = some '0'
    · have := hhead h0
      simp [hall, hemp, this]
    · simp [hall, hemp, h0]
  unfold fmt_d
  split
  · simpa [no_leading_zeros] using key N.natAbs
  · obtain ⟨c, rest, hcr, hc⟩ := fmt_unsigned_head_ne_minus N.natAbs
    have := key N.natAbs
    rw [hcr] at this ⊢
    simpa [no_leading_zeros, hc] using this

/-! ## The claims -/

/-- C1: for every host capacity value `N`, zero and negative values
included, `main` sends to standard output exactly the bytes `FD_SETSIZE=`,
the decimal representation of `N` and one newline, and returns exit status
0. For `N = 1024` the line is `FD_SETSIZE=1024`, for `N = 256` it is
`FD_SETSIZE=256`, each followed by a newline. -/
theorem main_prints_capacity_line (N host_result : Int) (w : World) :
    main N host_result w
        = some ({ w with
            stdout := w.stdout ++ [("FD_SETSIZE=" ++ toString N ++ "\n").toList] }, 0)
      ∧ bytes_written w (main N host_result w)
        = some ("FD_SETSIZE=" ++ toString N ++ "\n").toList
      ∧ main 1024 host_result w
        = some ({ w with stdout := w.stdout ++ ["FD_SETSIZE=1024\n".toList] }, 0)
      ∧ main 256 host_result w
        = some ({ w with stdout := w.stdout ++ ["FD_SETSIZE=256\n".toList] }, 0) := by
  have h := main_eq N host_result w
  refine ⟨h, ?_, ?_, ?_⟩
  · rw [h]
    exact bytes_written_append w _ 0
  · have h1 := main_eq 1024 host_result w
    have e : spec_line 1024 = "FD_SETSIZE=1024\n".toList := by decide
    rw [e] at h1
    exact h1
  · have h2 := main_eq 256 host_result w
    have e : spec_line 256 = "FD_SETSIZE=256\n".toList := by decide
    rw [e] at h2
    exact h2

/-- C2: for every host capacity value `N`, the consumer that takes the
output of the probe, removes the trailing line terminator and splits at `=`
gets exactly two fields, the first of which is `FD_SETSIZE`, and reading the
second as a decimal integer gives exactly `N`. -/
theorem consumer_reads_capacity_back (N host_result : Int) (inv : Invocation) (w : World) :
    ∃ out value : Bytes,
      bytes_written w (run_probe N inv host_result w) = some out ∧
      split_on '=' (chomp out) = ["FD_SETSIZE".toList, value] ∧
      parse_int value = some N := by
  refine ⟨spec_line N, fmt_d N, ?_, ?_, parse_int_fmt_d N⟩
  · rw [run_probe_eq]
    exact bytes_written_append w _ 0
  · have hshape : "FD_SETSIZE=".toList ++ fmt_d N = "FD_SETSIZE".toList ++ '=' :: fmt_d N := rfl
    have hkey : '=' ∉ "FD_SETSIZE".toList := by decide
    have hval : '=' ∉ fmt_d N := fun hm => (fmt_d_char_facts N '=' hm).1 rfl
    rw [spec_line_eq, chomp_append_newline, hshape, split_on_append '=' _ _ hkey,
      split_on_no_sep '=' _ hval]

/-- C3: for every host, the output of the probe matches the pattern
`FD_SETSIZE=<positive integer>` (the text after `=` and before the line
terminator is a non-empty string of decimal digits denoting a number greater
than 0), and the exit status is 0. The values the host capacity constant can
take are those of the data model's invariant, a positive integer, which is
the hypothesis `hN`. -/
theorem positive_capacity_matches_pattern (N host_result : Int) (inv : Invocation)
    (w : World) (hN : 0 < N) :
    ∃ out : Bytes,
      bytes_written w (run_probe N inv host_result w) = some out ∧
      matches_positive_pattern out = true ∧
      exit_status (run_probe N inv host_result w) = some 0 := by
  refine ⟨spec_line N, ?_, ?_, ?_⟩
  · rw [run_probe_eq]
    exact bytes_written_append w _ 0
  · have hfmt : fmt_d N = fmt_unsigned N.natAbs := by
      have : ¬ N < 0 := by omega
      simp [fmt_d, this]
    obtain ⟨hne, hdig, _, hval⟩ := fmt_unsigned_spec N.natAbs
    have hall : (fmt_unsigned N.natAbs).all Char.isDigit = true := by
      rw [List.all_eq_true]
      intro c hc
      obtain ⟨d, hd, rfl⟩ := hdig c hc
      exact (digit_char_facts d hd).2.1
    have hemp : (fmt_unsigned N.natAbs).isEmpty = false := by
      cases h : fmt_unsigned N.natAbs with
      | nil => exact absurd h hne
      | cons a t => rfl
    have hpos : 0 < N.natAbs := by omega
    simp only [matches_positive_pattern, value_text_spec_line, hfmt, hemp, hall, hval]
    simpa using hpos
  · rw [run_probe_eq]
    rfl

/-- C3 at a positive capacity: the host value 1024. -/
theorem positive_capacity_matches_pattern_witness :
    (0 : Int) < 1024 ∧
    ∃ out : Bytes,
      bytes_written ⟨[], [], [], []⟩ (run_probe 1024 ⟨[], []⟩ 16 ⟨[], [], [], []⟩) = some out ∧
      matches_positive_pattern out = true ∧
      exit_status (run_probe 1024 ⟨[], []⟩ 16 ⟨[], [], [], []⟩) = some 0 :=
  ⟨by decide, positive_capacity_matches_pattern 1024 16 ⟨[], []⟩ ⟨[], [], [], []⟩ (by decide)⟩

/-- C4: for every host capacity value the output of the probe is exactly
one line. It contains exactly one newline, which is its last character, with
nothing after it; it contains no space, tab or other white space besides
that newline; and the printed integer has no `+` sign, no padding and no
leading zeros. -/
theorem output_is_one_plain_line (N host_result : Int) (inv : Invocation) (w : World) :
    ∃ out body text : Bytes,
      bytes_written w (run_probe N inv host_result w) = some out ∧
      out = body ++ ['\n'] ∧ '\n' ∉ body ∧
      out.count '\n' = 1 ∧ out.getLast? = some '\n' ∧
      (∀ c ∈ body, isspace c = false) ∧
      value_text out = some text ∧ parse_int text = some N ∧
      '+' ∉ text ∧ no_leading_zeros text = true := by
  have hbody : ∀ c ∈ "FD_SETSIZE=".toList ++ fmt_d N, c ≠ '\n' ∧ isspace c = false := by
    intro c hc
    rcases List.mem_append.mp hc with h | h
    · exact prefix_chars c h
    · exact ⟨(fmt_d_char_facts N c h).2.2.1, (fmt_d_char_facts N c h).2.2.2⟩
  have hnl : '\n' ∉ "FD_SETSIZE=".toList ++ fmt_d N := fun hm => (hbody '\n' hm).1 rfl
  refine ⟨spec_line N, "FD_SETSIZE=".toList ++ fmt_d N, fmt_d N, ?_, spec_line_eq N, hnl,
    ?_, ?_, fun c hc => (hbody c hc).2, value_text_spec_line N, parse_int_fmt_d N,
    fun hm => (fmt_d_char_facts N '+' hm).2.1 rfl, no_leading_zeros_fmt_d N⟩
  · rw [run_probe_eq]
    exact bytes_written_append w _ 0
  · rw [spec_line_eq, List.count_append, List.count_eq_zero.mpr hnl]
    rfl
  · rw [spec_line_eq]
    exact List.getLast?_concat _

/-- C5: two invocations of the probe with the same host capacity send the
same bytes to standard output and both exit with status 0, whatever their
argument lists, their environment variables, the state they start in and
the result the host reports for the write. -/
theorem output_depends_on_capacity_only (N : Int) (inv₁ inv₂ : Invocation)
    (result₁ result₂ : Int) (w₁ w₂ : World) :
    ∃ out : Bytes,
      bytes_written w₁ (run_probe N inv₁ result₁ w₁) = some out ∧
      bytes_written w₂ (run_probe N inv₂ result₂ w₂) = some out ∧
      exit_status (run_probe N inv₁ result₁ w₁) = some 0 ∧
      exit_status (run_probe N inv₂ result₂ w₂) = some 0 := by
  refine ⟨spec_line N, ?_, ?_, ?_, ?_⟩
  · rw [run_probe_eq]
    exact bytes_written_append w₁ _ 0
  · rw [run_probe_eq]
    exact bytes_written_append w₂ _ 0
  · rw [run_probe_eq]
    rfl
  · rw [run_probe_eq]
    rfl

/-- C6: the probe has no failure path at run time. For every host capacity
value, every invocation and every result the host reports for the write to
standard output, the run returns, and its exit status is 0. -/
theorem exit_status_is_always_zero (N host_result : Int) (inv : Invocation) (w : World) :
    exit_status (run_probe N inv host_result w) = some 0 ∧
      exit_status (main N host_result w) = some 0 := by
  constructor
  · rw [run_probe_eq]
    rfl
  · rw [main_eq]
    rfl

/-- C7: as a state machine the probe has exactly two control states,
`Running`, in which it starts, and `Terminated`. The only step of a running
process writes the one output line and leads to `Terminated` with status 0;
a terminated process has no step; so every execution stops after exactly
one step. -/
theorem two_states_one_transition (N host_result : Int) (w : World) (st : Option Int)
    (fuel : Nat) :
    (∀ ph : Phase, ph = Phase.Running ∨ ph = Phase.Terminated) ∧
      Phase.Running ≠ Phase.Terminated ∧
      (start w).phase = Phase.Running ∧
      step N host_result ⟨Phase.Running, w, st⟩
        = some ⟨Phase.Terminated, { w with stdout := w.stdout ++ [spec_line N] }, some 0⟩ ∧
      step N host_result ⟨Phase.Terminated, w, st⟩ = none ∧
      exec N host_result (fuel + 1) (start w)
        = (⟨Phase.Terminated, { w with stdout := w.stdout ++ [spec_line N] }, some 0⟩, 1) := by
  have hstep : ∀ s : Option Int, step N host_result ⟨Phase.Running, w, s⟩
      = some ⟨Phase.Terminated, { w with stdout := w.stdout ++ [spec_line N] }, some 0⟩ := by
    intro s
    simp only [step, main_eq]
  refine ⟨fun ph => by cases ph <;> simp, by decide, rfl, hstep st, rfl, ?_⟩
  have hterm : ∀ (k : Nat) (w' : World) (s : Option Int),
      exec N host_result k ⟨Phase.Terminated, w', s⟩ = (⟨Phase.Terminated, w', s⟩, 0) := by
    intro k w' s
    cases k <;> rfl
  rw [exec, start, hstep none]
  simp only [hterm]

/-- C8: the only effect of a run of the probe on the world is one write
appended to standard output. The run returns with status 0; standard output
holds exactly one more write than before, and that write is the non-empty
line `FD_SETSIZE=`, the decimal representation of the capacity, a newline;
files, descriptors and sockets are as they were. -/
theorem only_effect_is_one_write (N host_result : Int) (inv : Invocation) (w : World) :
    ∃ (w' : World) (line : Bytes),
      run_probe N inv host_result w = some (w', 0) ∧
      line = ("FD_SETSIZE=" ++ toString N ++ "\n").toList ∧ line ≠ [] ∧
      w'.stdout = w.stdout ++ [line] ∧
      w'.stdout.length = w.stdout.length + 1 ∧
      bytes_written w (run_probe N inv host_result w) = some line ∧
      w'.files = w.files ∧ w'.descriptors = w.descriptors ∧ w'.sockets = w.sockets := by
  have hne : spec_line N ≠ [] := by
    rw [spec_line_eq]
    simp
  refine ⟨{ w with stdout := w.stdout ++ [spec_line N] }, spec_line N,
    run_probe_eq N host_result inv w, rfl, hne, rfl, ?_, ?_, rfl, rfl, rfl⟩
  · simp
  · rw [run_probe_eq]
    exact bytes_written_append w _ 0

end Probe
